import Mathlib

/-!
Verification development for the Neo4j-backed state store of alchemiscale
(alchemiscale/storage/statestore.py). The graph database state is embedded
shallowly: nodes and relationships become Lean structures, the Cypher
queries become pure functions over that state, and the py2neo transaction
discipline (commit on success, rollback re-raising on failure) is reflected
by Except-valued results, where an error value means the exception
propagated and the pre-call state is unchanged.
-/

namespace Alchemiscale

/-- A Task node: reserved scoped key, mutable status / priority / claim
properties, a PERFORMS relationship to its Transformation, and an optional
EXTENDS relationship to a predecessor Task
(statestore.py, Neo4jStore.create_task). -/
structure TaskRec where
  sk : String
  status : String
  priority : Int
  claim : Option String
  performs : String
  extendsFrom : Option String
deriving DecidableEq, Repr

/-- A TaskHub node: scoped key, the network it PERFORMS, and its own
weight property (statestore.py, Neo4jStore.create_taskhub; the TaskHub
model defaults weight to 0.5). -/
structure HubRec where
  sk : String
  network : String
  weight : ℚ
deriving DecidableEq, Repr

/-- An ACTIONS relationship from a TaskHub to a Task, with the properties
set by Neo4jStore.queue_taskhub_tasks: weight, the taskhub scoped key, and
the denormalized parent_task scoped key.  `hub` and `target` are the
structural endpoints of the relationship. -/
structure ActionsRel where
  hub : String
  target : String
  taskhub : String
  parent_task : String
  weight : ℚ
deriving DecidableEq, Repr

/-- The slice of the graph database state used by the TaskHub scheduler:
AlchemicalNetwork nodes (by scoped key), the DEPENDS_ON edges from a
network to its Transformations, TaskHub nodes, Task nodes, and ACTIONS
relationships.  IEEE floats from the source are modelled as rationals. -/
structure DB where
  networks : List String
  networkDeps : List (String × String)
  hubs : List HubRec
  tasks : List TaskRec
  actions : List ActionsRel
deriving DecidableEq, Repr

/-- Look up a Task node by scoped key (unique by database constraint). -/
def findTask (db : DB) (sk : String) : Option TaskRec :=
  db.tasks.find? (fun t => t.sk == sk)

/-! ## Identity and scope store -/

/-- A credentialed entity node: unique identifier and its scopes list
property (alchemiscale.security.models.CredentialedEntity). -/
structure Entity where
  identifier : String
  scopes : List String
deriving DecidableEq, Repr

/-- Embeds Neo4jStore.add_scope: the Cypher matches every node with the
given identifier, and the WHERE NONE guard makes the SET a no-op for a
node whose scopes list already contains the scope string; otherwise the
scope string is appended. -/
def add_scope (es : List Entity) (ident scope : String) : List Entity :=
  es.map fun e =>
    if e.identifier = ident ∧ scope ∉ e.scopes then
      { e with scopes := e.scopes ++ [scope] }
    else e

/-- Embeds Neo4jStore.remove_scope: the Cypher list comprehension
keeps exactly the elements of the scopes list different from the given
scope string. -/
def remove_scope (es : List Entity) (ident scope : String) : List Entity :=
  es.map fun e =>
    if e.identifier = ident then
      { e with scopes := e.scopes.filter (fun x => x ≠ scope) }
    else e

/-! ## TaskHub creation (create_taskhub) -/

/-- Stand-in for the gufe content hash of the TaskHub object created for a
network: TaskHub(network=str(network)) is content-addressed, so its gufe
key, and hence the scoped key within the fixed scope of the network, is a
deterministic function of the network scoped key. -/
def taskhubSK (network : String) : String := "TaskHub-" ++ network

/-- True when some node in the database already carries this scoped key;
the uniqueness constraint on GufeTokenizable._scoped_key makes creating a
second node with the same key fail. -/
def nodeExistsSK (db : DB) (sk : String) : Bool :=
  db.networks.contains sk || db.hubs.any (fun h => h.sk == sk)
    || db.tasks.any (fun t => t.sk == sk)

def keyErrorMsg : String := "KeyError: No such object in database"

/-- Embeds Neo4jStore.create_taskhub: _get_node raises KeyError if the
network node is absent; otherwise the TaskHub node (weight 0.5 from the
TaskHub model default) and its PERFORMS relationship are created inside
`transaction(ignore_exceptions=True)` - when the uniqueness constraint on
the scoped key fires, the transaction rolls back and the exception is
swallowed, so the state is unchanged.  The TaskHub scoped key is returned
either way. -/
def create_taskhub (db : DB) (network : String) : Except String (DB × String) :=
  if network ∈ db.networks then
    if nodeExistsSK db (taskhubSK network) then
      Except.ok (db, taskhubSK network)
    else
      Except.ok ({ db with hubs := db.hubs ++ [⟨taskhubSK network, network, 1/2⟩] },
        taskhubSK network)
  else Except.error keyErrorMsg

/-! ## Task weights (set_task_weights) -/

/-- The `tasks` argument of set_task_weights: either a map from task
scoped key to weight, or a plain list of task scoped keys. -/
inductive TasksArg where
  | dict : List (String × ℚ) → TasksArg
  | list : List String → TasksArg

/-- One execution of the per-task Cypher in set_task_weights: every
ACTIONS relationship from the hub to the task gets its weight property
set. -/
def setWeightEdge (db : DB) (th t : String) (w : ℚ) : DB :=
  { db with actions := db.actions.map fun e =>
      if e.hub == th && e.target == t then { e with weight := w } else e }

def dictScalarErr : String := "Cannot set weight to a scalar if tasks is a dict"

def listNoScalarErr : String := "Must set weight to a scalar if tasks is a list"

/-- Embeds Neo4jStore.set_task_weights: a dict together with a scalar
weight, or a list without one, raises ValueError before any query runs;
otherwise each task's ACTIONS weight is set in its own transaction. -/
def set_task_weights (db : DB) (tasks : TasksArg) (th : String) (weight : Option ℚ) :
    Except String DB :=
  match tasks, weight with
  | TasksArg.dict _, some _ => Except.error dictScalarErr
  | TasksArg.dict d, none =>
      Except.ok (d.foldl (fun acc p => setWeightEdge acc th p.1 p.2) db)
  | TasksArg.list _, none => Except.error listNoScalarErr
  | TasksArg.list l, some w =>
      Except.ok (l.foldl (fun acc t => setWeightEdge acc th t w) db)

/-! ## Task claiming (claim_taskhub_tasks) -/

/-- True when the Task node with this scoped key exists with status
waiting (the predicate of the taskpool query). -/
def isWaiting (db : DB) (sk : String) : Bool :=
  match findTask db sk with
  | some t => t.status == "waiting"
  | none => false

/-- The relationships matched by
(th:TaskHub)-[:ACTIONS]->(waiting_task:Task) WHERE status = waiting. -/
def hubWaitingEdges (db : DB) (th : String) : List ActionsRel :=
  db.actions.filter (fun e => e.hub == th && isWaiting db e.target)

def taskPriority (db : DB) (sk : String) : Option Int :=
  (findTask db sk).map TaskRec.priority

/-- MIN(waiting_task.priority) over waiting tasks actioned on the hub;
none models the null produced by MIN over zero rows, which makes the
second MATCH of the taskpool query empty. -/
def hubMinPriority (db : DB) (th : String) : Option Int :=
  match (hubWaitingEdges db th).filterMap (fun e => taskPriority db e.target) with
  | [] => none
  | p :: ps => some (ps.foldl min p)

/-- The taskpool subgraph of claim_taskhub_tasks: the ACTIONS
relationships (carrying parent_task and weight) to waiting tasks at the
minimum priority.  An empty result models to_subgraph() returning None. -/
def taskpoolQ (db : DB) (th : String) : List ActionsRel :=
  match hubMinPriority db th with
  | none => []
  | some m =>
      (hubWaitingEdges db th).filter (fun e => taskPriority db e.target == some m)

/-- Python dict assignment: the first insertion of a key fixes its
position, a later assignment overwrites the value in place. -/
def updAssoc (l : List (String × ℚ)) (k : String) (v : ℚ) : List (String × ℚ) :=
  if l.any (fun p => p.1 == k) then
    l.map (fun p => if p.1 == k then (k, v) else p)
  else l ++ [(k, v)]

/-- The tasks_and_weights dict built by _select_task_from_taskpool from
the parent_task and weight properties of the taskpool records. -/
def poolAssoc (pool : List ActionsRel) : List (String × ℚ) :=
  pool.foldl (fun acc e => updAssoc acc e.parent_task e.weight) []

/-- Inverse-CDF walk over raw weights at threshold r: the entry at which
the running sum first exceeds r.  With r = u * (sum of weights) for a
uniform u in [0,1) this is exactly a categorical draw with the normalized
weights as probabilities, which is the semantics of
np.random.choice(tasks, 1, p=weights): an entry of probability zero is
never drawn. -/
def pickW : List (String × ℚ) → ℚ → Option (String × ℚ)
  | [], _ => none
  | (s, w) :: tl, r => if r < w then some (s, w) else pickW tl (r - w)

def sumW (l : List (String × ℚ)) : ℚ := (l.map Prod.snd).sum

/-- Embeds _select_task_from_taskpool: build the tasks_and_weights dict,
return None if all weights are zero, otherwise draw one task according to
the normalized weights, the draw being driven by the uniform variate r. -/
def selectTaskFromTaskpool (pool : List ActionsRel) (r : ℚ) : Option String :=
  let tw := poolAssoc pool
  if tw.all (fun p => p.2 == 0) then none
  else (pickW tw (r * sumW tw)).map Prod.fst

/-- The SET of _generate_claim_query: WITH t LIMIT 1 updates only the
first Task matching the scoped key. -/
def claimUpdate : List TaskRec → String → String → List TaskRec
  | [], _, _ => []
  | t :: ts, sk, c =>
    if t.sk == sk then { t with status := "running", claim := some c } :: ts
    else t :: claimUpdate ts sk c

/-- Embeds running _generate_claim_query and taking to_subgraph(): if a
Task with the scoped key exists its status becomes running and its claim
the claimant, and the node is returned; otherwise (including the query
generated from a None selection, which matches nothing) the result is
None and nothing changes. -/
def runClaimQuery (db : DB) (sk claimant : String) : DB × Option String :=
  match findTask db sk with
  | none => (db, none)
  | some _ => ({ db with tasks := claimUpdate db.tasks sk claimant }, some sk)

/-- One iteration of the loop of Neo4jStore.claim_taskhub_tasks: run the
taskpool query (an empty pool models to_subgraph() = None, appending
None), select from the pool, and run the claim query on the selection. -/
def claimStep (th claimant : String) (r : ℚ) (db : DB) : DB × Option String :=
  if taskpoolQ db th = [] then (db, none)
  else
    match selectTaskFromTaskpool (taskpoolQ db th) r with
    | none => (db, none)
    | some sk => runClaimQuery db sk claimant

/-- The count-fold of claim_taskhub_tasks; rnd i is the uniform variate
consumed by the i-th iteration's np.random.choice. -/
def claimLoop (th claimant : String) (rnd : Nat → ℚ) :
    Nat → Nat → DB → DB × List (Option String)
  | _, 0, db => (db, [])
  | i, n + 1, db =>
    let s := claimStep th claimant (rnd i) db
    let rest := claimLoop th claimant rnd (i + 1) n s.1
    (rest.1, s.2 :: rest.2)

/-- Embeds Neo4jStore.claim_taskhub_tasks: count iterations inside one
transaction, returning the claimed scoped keys with None placeholders. -/
def claim_taskhub_tasks (db : DB) (th claimant : String) (count : Nat)
    (rnd : Nat → ℚ) : DB × List (Option String) :=
  claimLoop th claimant rnd 0 count db

/-! ## Queueing, dequeueing, network deletion -/

def findHub (db : DB) (sk : String) : Option HubRec :=
  db.hubs.find? (fun h => h.sk == sk)

def taskNotFoundErr : String :=
  "ValueError: Task not found in same network as given TaskHub"

/-- Embeds the per-task Cypher of Neo4jStore.queue_taskhub_tasks.  The
required MATCH clauses bind the hub, the AlchemicalNetwork it PERFORMS,
and the task, requiring the network to DEPENDS_ON the Transformation the
task PERFORMS; if they produce no row, RETURN tn yields None and the
Python raises ValueError.  The WHERE clause that follows the OPTIONAL
MATCH on EXTENDS is, by Cypher semantics, part of that OPTIONAL MATCH:
when its predicate fails (the task is already actioned on this hub, or
its EXTENDS predecessor is not complete, or it has no predecessor at
all) the row survives with other_task bound to null, and the CREATE
still runs.  So once the membership MATCH succeeds an ACTIONS
relationship with weight 1.0 and denormalized taskhub and parent_task
properties is created unconditionally. -/
def queueTaskOne (db : DB) (th t : String) : Option DB :=
  match findHub db th with
  | none => none
  | some hub =>
    if hub.network ∈ db.networks then
      match findTask db t with
      | none => none
      | some task =>
        if (hub.network, task.performs) ∈ db.networkDeps then
          some { db with actions := db.actions ++ [⟨th, t, th, t, 1⟩] }
        else none
    else none

/-- Embeds Neo4jStore.queue_taskhub_tasks: tasks are processed one
transaction each; a membership failure raises ValueError, with the edges
of earlier iterations already committed (the error value carries that
state). -/
def queueLoop (th : String) : DB → List String → Except (String × DB) DB
  | db, [] => Except.ok db
  | db, t :: ts =>
    match queueTaskOne db th t with
    | none => Except.error (taskNotFoundErr, db)
    | some db' => queueLoop th db' ts

def queue_taskhub_tasks (db : DB) (ts : List String) (th : String) :
    Except (String × DB) (DB × List String) :=
  (queueLoop th db ts).map (fun db' => (db', ts))

def cypherSyntaxErr : String :=
  "Neo.ClientError.Statement.SyntaxError: malformed MATCH clause"

/-- Embeds Neo4jStore.dequeue_taskhub_tasks.  The per-task Cypher reads
MATCH (th:TaskHub ...)-[:ACTIONS]->(task:Task ...), with a trailing
comma, followed by DETACH DELETE task.  The comma makes the MATCH clause
expect another pattern, so the server rejects the statement as a syntax
error before executing anything (and even without the comma the
statement would DETACH DELETE the Task node itself, not the ACTIONS
relationship).  tx.run raises on the first task, the transaction
context rolls back and re-raises, and the database is unchanged. -/
def dequeue_taskhub_tasks (db : DB) (ts : List String) (th : String) :
    Except String (DB × List String) :=
  match ts with
  | [] => Except.ok (db, [])
  | _ :: _ => Except.error cypherSyntaxErr

/-- Embeds Neo4jStore.get_taskhub: match the TaskHub whose network
property is the given network scoped key. -/
def get_taskhub (db : DB) (network : String) : Option String :=
  (db.hubs.find? (fun h => h.network == network)).map HubRec.sk

def noneTypeErr : String := "TypeError: NoneType object is not subscriptable"

/-- Embeds Neo4jStore.delete_taskhub: when the network has no hub,
get_taskhub returns None from to_subgraph() and the node subscript
raises TypeError; otherwise the DETACH DELETE query carries a trailing
comma after its MATCH clause, so the server rejects it and graph.run
raises.  Either way nothing is deleted. -/
def delete_taskhub (db : DB) (network : String) : Except String (DB × String) :=
  match get_taskhub db network with
  | none => Except.error noneTypeErr
  | some _ => Except.error cypherSyntaxErr

/-- Embeds Neo4jStore.delete_network: it first calls delete_taskhub
(which always raises, see delete_taskhub); and even on a path where that
returned, the DETACH DELETE query for the AlchemicalNetwork node is
built as an f-string but never passed to the database, so the network
node survives in every case. -/
def delete_network (db : DB) (network : String) : Except String (DB × String) :=
  match delete_taskhub db network with
  | Except.error e => Except.error e
  | Except.ok (db', _) => Except.ok (db', network)

/-- Well-formedness established by queue_taskhub_tasks: the denormalized
parent_task property equals the scoped key of the relationship target. -/
def actionsDenormWF (db : DB) : Prop :=
  ∀ e ∈ db.actions, e.parent_task = e.target

/-- np.random.choice requires nonnegative probabilities. -/
def weightsNonneg (db : DB) : Prop := ∀ e ∈ db.actions, 0 ≤ e.weight

/-- At most one ACTIONS relationship per (hub, task) pair, the state the
WHERE NOT guard of queue_taskhub_tasks is meant to maintain. -/
def actionsUnique (db : DB) : Prop :=
  (db.actions.map (fun e => (e.hub, e.target))).Nodup

/-- The two situations in which a claim iteration must yield a null
entry: no waiting task is actioned on the hub, or every weight at the
minimum priority is zero. -/
def nullCond (db : DB) (th : String) : Prop :=
  taskpoolQ db th = [] ∨ ∀ e ∈ taskpoolQ db th, e.weight = 0

/-- What the claim asserts of a non-null entry: the scoped key of a task
that was waiting, at the minimum priority among waiting tasks actioned on
the hub, with a nonzero ACTIONS weight. -/
def pickedOk (db : DB) (th sk : String) : Prop :=
  (∃ t ∈ db.tasks, t.sk = sk ∧ t.status = "waiting"
    ∧ some t.priority = hubMinPriority db th)
  ∧ ∃ e ∈ db.actions, e.hub = th ∧ e.parent_task = sk ∧ e.weight ≠ 0

/-- States reachable from db by claim iterations of this hub/claimant. -/
inductive ClaimReach (th claimant : String) (rnd : Nat → ℚ) : DB → DB → Prop where
  | refl (db : DB) : ClaimReach th claimant rnd db db
  | step (db d : DB) (i : Nat) :
      ClaimReach th claimant rnd db d →
      ClaimReach th claimant rnd db (claimStep th claimant (rnd i) d).1

/-! ## Object-graph codec (_gufe_to_subgraph / _node_to_gufe)

The shallow dictionaries handled by the codec map attribute names to
Python values: scalars, lists, tuples, dicts with string keys, and nested
GufeTokenizable objects.  Floats are omitted from the scalar type (they
play no role in the claims); bool is a subclass of int in Python, which
the isinstance model below reflects.  A GufeTokenizable is
content-addressed: its gufe key is a deterministic function of its
shallow dictionary, modelled here by a canonical serialization in place
of the hash. -/

inductive Scalar where
  | sInt : Int → Scalar
  | sStr : String → Scalar
  | sBool : Bool → Scalar
  | sNone : Scalar
deriving DecidableEq, Repr

/-- Structural model of a json.dumps image (JSON_HANDLER-encoded). -/
inductive Jn where
  | jNull : Jn
  | jBool : Bool → Jn
  | jInt : Int → Jn
  | jStr : String → Jn
  | jArr : List Jn → Jn
  | jObj : List (String × Jn) → Jn

mutual
inductive GValue where
  | prim : Scalar → GValue
  | vlist : List GValue → GValue
  | vtuple : List GValue → GValue
  | vdict : List (String × GValue) → GValue
  | obj : GObj → GValue

inductive GObj where
  | mk : List (String × GValue) → GObj
end

/-- The shallow attribute dictionary of an object (to_shallow_dict). -/
def GObj.sdct : GObj → List (String × GValue)
  | .mk d => d

def serScalar : Scalar → String
  | .sInt n => "i" ++ toString n
  | .sStr s => "s(" ++ s ++ ")"
  | .sBool b => "b" ++ toString b
  | .sNone => "n"

mutual
def serVal : GValue → String
  | .prim s => "p" ++ serScalar s
  | .vlist l => "l[" ++ serVals l ++ "]"
  | .vtuple l => "t[" ++ serVals l ++ "]"
  | .vdict d => "d[" ++ serPairs d ++ "]"
  | .obj o => "o[" ++ serObj o ++ "]"

def serVals : List GValue → String
  | [] => ""
  | v :: vs => serVal v ++ ";" ++ serVals vs

def serPairs : List (String × GValue) → String
  | [] => ""
  | (k, v) :: ps => k ++ "=" ++ serVal v ++ ";" ++ serPairs ps

def serObj : GObj → String
  | .mk d => serPairs d
end

/-- The content-addressed gufe key of an object: deterministic in the
shallow dict; the hash is modelled by a canonical serialization. -/
def GObj.key (o : GObj) : String := "gufe-" ++ serObj o

def jnOfScalar : Scalar → Jn
  | .sInt n => .jInt n
  | .sStr s => .jStr s
  | .sBool b => .jBool b
  | .sNone => .jNull

mutual
/-- json.dumps with the gufe-aware JSON_HANDLER encoder, structurally:
plain values map to their JSON images (a tuple becomes an array), an
embedded object to a keyed object form. -/
def toJn : GValue → Jn
  | .prim s => jnOfScalar s
  | .vlist l => .jArr (toJnList l)
  | .vtuple l => .jArr (toJnList l)
  | .vdict d => .jObj (toJnPairs d)
  | .obj (.mk d) => .jObj (("__gufe__", .jStr (serPairs d)) :: toJnPairs d)

def toJnList : List GValue → List Jn
  | [] => []
  | v :: vs => toJn v :: toJnList vs

def toJnPairs : List (String × GValue) → List (String × Jn)
  | [] => []
  | (k, v) :: ps => (k, toJn v) :: toJnPairs ps
end

mutual
/-- json.loads with the JSON_HANDLER decoder: arrays decode to lists (a
tuple does not survive a JSON round trip), keyed object forms back to
objects, other JSON objects to dicts. -/
def fromJn : Jn → GValue
  | .jNull => .prim .sNone
  | .jBool b => .prim (.sBool b)
  | .jInt n => .prim (.sInt n)
  | .jStr s => .prim (.sStr s)
  | .jArr l => .vlist (fromJnList l)
  | .jObj (("__gufe__", .jStr _) :: ps) => .obj (.mk (fromJnPairs ps))
  | .jObj ps => .vdict (fromJnPairs ps)

def fromJnList : List Jn → List GValue
  | [] => []
  | j :: js => fromJn j :: fromJnList js

def fromJnPairs : List (String × Jn) → List (String × GValue)
  | [] => []
  | (k, j) :: ps => (k, fromJn j) :: fromJnPairs ps
end

mutual
/-- The json.dumps text of a JSON image. -/
def jnStr : Jn → String
  | .jNull => "null"
  | .jBool true => "true"
  | .jBool false => "false"
  | .jInt n => toString n
  | .jStr s => "\"" ++ s ++ "\""
  | .jArr l => "[" ++ jnStrList l ++ "]"
  | .jObj ps => "\x7b" ++ jnStrPairs ps ++ "\x7d"

def jnStrList : List Jn → String
  | [] => ""
  | j :: js => jnStr j ++ "," ++ jnStrList js

def jnStrPairs : List (String × Jn) → String
  | [] => ""
  | (k, j) :: ps => "\"" ++ k ++ "\":" ++ jnStr j ++ "," ++ jnStrPairs ps
end

/-- A node property value: a scalar, a uniform primitive list stored
natively, or a JSON-serialized blob (held structurally). -/
inductive PropVal where
  | pv : Scalar → PropVal
  | pvList : List Scalar → PropVal
  | pvJson : Jn → PropVal

/-- A py2neo Node: its identity (the gufe key - the gufe_nodes cache
guarantees one node object per key) and its property dictionary in
insertion order. -/
structure PNode where
  nid : String
  props : List (String × PropVal)

/-- A DEPENDS_ON relationship with its attribute and optional key / index
properties (the scope properties are never read by decode and are
omitted). -/
structure DepRel where
  src : String
  dst : String
  attr : String
  key : Option String
  index : Option Nat

structure Subgraph where
  nodes : List PNode
  rels : List DepRel

def scopeOrg : String := "org1"

def scopeCampaign : String := "campaignA"

def scopeProject : String := "projectX"

def scopedKeyOf (k : String) : String :=
  k ++ "-" ++ scopeOrg ++ "-" ++ scopeCampaign ++ "-" ++ scopeProject

/-- isinstance(x, (int, float, str)): true for int and str scalars and
for bool (a subclass of int), false for None. -/
def isPrimNum : Scalar → Bool
  | .sNone => false
  | _ => true

/-- Tag of type(x). -/
def tyTag : Scalar → Nat
  | .sInt _ => 0
  | .sStr _ => 1
  | .sBool _ => 2
  | .sNone => 3

/-- isinstance(x, type with the given tag); bool is a subclass of int. -/
def isInstOf : Scalar → Nat → Bool
  | .sInt _, 0 => true
  | .sBool _, 0 => true
  | .sBool _, 2 => true
  | .sStr _, 1 => true
  | .sNone, 3 => true
  | _, _ => false

def asPrim : GValue → Option Scalar
  | .prim s => some s
  | _ => none

def isObjVal : GValue → Bool
  | .obj _ => true
  | _ => false

/-- The uniform-primitive test of the list and tuple branches:
isinstance(value[0], (int, float, str)) and every element an instance of
type(value[0]). -/
def uniformPrim (h : GValue) (l : List GValue) : Bool :=
  (match asPrim h with
   | some s => isPrimNum s
   | none => false)
  && l.all (fun v =>
      match asPrim v, asPrim h with
      | some x, some s => isInstOf x (tyTag s)
      | _, _ => false)

mutual
/-- Embeds Neo4jStore._gufe_to_subgraph for one object: the node carries
the reserved properties in Python insertion order (_json_props,
_gufe_key, _org, _campaign, _project, _scoped_key) followed by the
attribute properties; the DEPENDS_ON relationships and the recursively
encoded child nodes are collected alongside.  none models the IndexError
raised by the unconditional value[0] on an empty list or tuple
attribute.  Encoding is deterministic in the content key, so the
gufe_nodes cache of the source is modelled by deduplicating the
collected nodes by key when the subgraph is assembled. -/
def encObj : GObj → Option (PNode × List PNode × List DepRel)
  | .mk sdct => do
    let pk := GObj.key (GObj.mk sdct)
    let (props, jps, nodes, rels) ← encAttrs pk sdct
    let node : PNode :=
      { nid := pk
        props := [("_json_props", PropVal.pvList (jps.map Scalar.sStr)),
                  ("_gufe_key", PropVal.pv (Scalar.sStr pk)),
                  ("_org", PropVal.pv (Scalar.sStr scopeOrg)),
                  ("_campaign", PropVal.pv (Scalar.sStr scopeCampaign)),
                  ("_project", PropVal.pv (Scalar.sStr scopeProject)),
                  ("_scoped_key", PropVal.pv (Scalar.sStr (scopedKeyOf pk)))]
                 ++ props }
    some (node, node :: nodes, rels)

def encAttrs (pk : String) :
    List (String × GValue) →
    Option (List (String × PropVal) × List String × List PNode × List DepRel)
  | [] => some ([], [], [], [])
  | (key, value) :: rest => do
    let (props₁, jps₁, nodes₁, rels₁) ← encAttr pk key value
    let (props₂, jps₂, nodes₂, rels₂) ← encAttrs pk rest
    some (props₁ ++ props₂, jps₁ ++ jps₂, nodes₁ ++ nodes₂, rels₁ ++ rels₂)

/-- The per-attribute branch structure of _gufe_to_subgraph. -/
def encAttr (pk akey : String) :
    GValue →
    Option (List (String × PropVal) × List String × List PNode × List DepRel)
  | .vdict d =>
    if d.all (fun p => isObjVal p.2) then do
      let (nodes, rels) ← encDictEntries pk akey d
      some ([], [], nodes, rels)
    else
      some ([(akey, PropVal.pvJson (toJn (.vdict d)))], [akey], [], [])
  | .vlist [] => none
  | .vlist (h :: t) =>
    if uniformPrim h (h :: t) then
      some ([(akey, PropVal.pvList ((h :: t).filterMap asPrim))], [], [], [])
    else if (h :: t).all isObjVal then do
      let (nodes, rels) ← encListEntries pk akey 0 (h :: t)
      some ([], [], nodes, rels)
    else
      some ([(akey, PropVal.pvJson (toJn (.vlist (h :: t))))], [akey], [], [])
  | .vtuple [] => none
  | .vtuple (h :: t) =>
    if !(uniformPrim h (h :: t)) then
      some ([(akey, PropVal.pvJson (toJn (.vtuple (h :: t))))], [akey], [], [])
    else
      some ([], [], [], [])
  | .obj o => do
    let (node, nodes, rels) ← encObj o
    some ([], [], nodes,
      rels ++ [{ src := pk, dst := node.nid, attr := akey,
                 key := none, index := none }])
  | .prim s => some ([(akey, PropVal.pv s)], [], [], [])

def encDictEntries (pk akey : String) :
    List (String × GValue) → Option (List PNode × List DepRel)
  | [] => some ([], [])
  | (k, GValue.obj o) :: rest => do
    let (node, nodes, rels) ← encObj o
    let (nodes₂, rels₂) ← encDictEntries pk akey rest
    some (nodes ++ nodes₂,
      rels ++ [{ src := pk, dst := node.nid, attr := akey,
                 key := some k, index := none }] ++ rels₂)
  | _ :: _ => none

def encListEntries (pk akey : String) (i : Nat) :
    List GValue → Option (List PNode × List DepRel)
  | [] => some ([], [])
  | GValue.obj o :: rest => do
    let (node, nodes, rels) ← encObj o
    let (nodes₂, rels₂) ← encListEntries pk akey (i + 1) rest
    some (nodes ++ nodes₂,
      rels ++ [{ src := pk, dst := node.nid, attr := akey,
                 key := none, index := some i }] ++ rels₂)
  | _ :: _ => none
end

/-- py2neo Subgraph union with the gufe_nodes cache: one node per gufe
key (keys are content-derived, so later encodings of the same key are
identical and the first is kept). -/
def dedupNodes (l : List PNode) : List PNode :=
  l.foldl (fun acc n =>
    if acc.any (fun m => m.nid == n.nid) then acc else acc ++ [n]) []

/-- Embeds Neo4jStore._gufe_to_subgraph at top level: the subgraph, the
root node, and the scoped key. -/
def gufe_to_subgraph (o : GObj) : Option (Subgraph × PNode × String) := do
  let (node, nodes, rels) ← encObj o
  some ({ nodes := dedupNodes nodes, rels := rels }, node, scopedKeyOf node.nid)

/-- nx.DiGraph.add_edge: a second edge between the same ordered node pair
overwrites the data of the first (keeping the original position). -/
def addEdge (acc : List DepRel) (r : DepRel) : List DepRel :=
  if acc.any (fun e => e.src == r.src && e.dst == r.dst) then
    acc.map (fun e => if e.src == r.src && e.dst == r.dst then r else e)
  else acc ++ [r]

/-- The edges of the networkx DiGraph built by _subgraph_to_networkx. -/
def nxEdges (rels : List DepRel) : List DepRel := rels.foldl addEdge []

def findNode (g : Subgraph) (nid : String) : Option PNode :=
  g.nodes.find? (fun n => n.nid == nid)

/-- g.edges(node): the out-edges of the node. -/
def outEdges (g : Subgraph) (nid : String) : List DepRel :=
  (nxEdges g.rels).filter (fun e => e.src == nid)

/-- A value of the working dict of _node_to_gufe: an untouched node
property, an already-decoded value, a map attribute being assembled from
key edges, or an (index, child) list being assembled from index edges. -/
inductive WVal where
  | raw : PropVal → WVal
  | val : GValue → WVal
  | wmap : List (String × GObj) → WVal
  | widx : List (Nat × GObj) → WVal

abbrev WDict := List (String × WVal)

def aget (d : WDict) (k : String) : Option WVal :=
  (d.find? (fun p => p.1 == k)).map Prod.snd

/-- Python dict assignment: update in place or append. -/
def aset (d : WDict) (k : String) (v : WVal) : WDict :=
  if d.any (fun p => p.1 == k) then
    d.map (fun p => if p.1 == k then (k, v) else p)
  else d ++ [(k, v)]

/-- dct.pop(k, None). -/
def aremove (d : WDict) (k : String) : WDict :=
  d.filter (fun p => p.1 != k)

/-- Assignment into the inner dict of a map attribute. -/
def asetPair (m : List (String × GObj)) (k : String) (o : GObj) :
    List (String × GObj) :=
  if m.any (fun p => p.1 == k) then
    m.map (fun p => if p.1 == k then (k, o) else p)
  else m ++ [(k, o)]

/-- Stable insertion by index (after all entries with index at most the
new one). -/
def insIdx (x : Nat × GObj) : List (Nat × GObj) → List (Nat × GObj)
  | [] => [x]
  | y :: ys => if y.1 ≤ x.1 then y :: insIdx x ys else x :: y :: ys

/-- Python sorted with key = index: a stable ascending sort. -/
def sortIdx (l : List (Nat × GObj)) : List (Nat × GObj) :=
  l.foldl (fun acc x => insIdx x acc) []

def reservedKeys : List String :=
  ["_json_props", "_gufe_key", "_org", "_campaign", "_project", "_scoped_key"]

/-- The names held by the _json_props entry of the working dict (a
missing or non-list entry is a Python KeyError / TypeError). -/
def jsonNames (dct : WDict) : Option (List String) :=
  match aget dct "_json_props" with
  | some (.raw (.pvList l)) =>
    some (l.filterMap (fun s =>
      match s with
      | .sStr x => some x
      | _ => none))
  | _ => none

/-- The json.loads step of the property loop, run for properties listed
in _json_props; the loaded value replaces the raw property. -/
def jsonStep (jns : List String) (akey : String) (pval : PropVal)
    (dct : WDict) : Option WDict :=
  if akey ∈ jns then
    match pval with
    | .pvJson j => some (aset dct akey (WVal.val (fromJn j)))
    | _ => none
  else some dct

/-- The sort applied to attributes recorded in postprocess. -/
def sortIdxAttr (dct : WDict) (attr : String) : WDict :=
  match aget dct attr with
  | some (.widx l) =>
    aset dct attr (WVal.val (GValue.vlist ((sortIdx l).map (fun p => GValue.obj p.2))))
  | _ => dct

/-- from_shallow_dict input assembly: resolve each working value to the
Python value it holds (a leftover raw JSON property stays the serialized
string; a leftover (index, child) list stays a list of pairs). -/
def finalizeW : WVal → GValue
  | .raw (.pv s) => .prim s
  | .raw (.pvList l) => .vlist (l.map GValue.prim)
  | .raw (.pvJson j) => .prim (.sStr (jnStr j))
  | .val v => v
  | .wmap m => .vdict (m.map (fun p => (p.1, GValue.obj p.2)))
  | .widx l => .vlist (l.map (fun p => GValue.vtuple [.prim (.sInt p.1), .obj p.2]))

def finalizeDict (dct : WDict) : List (String × GValue) :=
  dct.map (fun p => (p.1, finalizeW p.2))

/-- The dependency injection block of _node_to_gufe: one pass over the
out-edges, decoding the child of each edge with the given child decoder
and placing it by attribute, key or index. -/
def injectEdges (decodeChild : String → Option GObj) (es : List DepRel)
    (dct : WDict) (pp : List String) : Option (WDict × List String) :=
  match es with
  | [] => some (dct, pp)
  | e :: rest =>
    match e.key with
    | some k => do
      let child ← decodeChild e.dst
      let dct' ←
        match aget dct e.attr with
        | none => some (aset dct e.attr (WVal.wmap [(k, child)]))
        | some (.wmap m) => some (aset dct e.attr (WVal.wmap (asetPair m k child)))
        | some _ => none
      injectEdges decodeChild rest dct' pp
    | none =>
      match e.index with
      | some i => do
        let pp' := if e.attr ∈ pp then pp else pp ++ [e.attr]
        let child ← decodeChild e.dst
        let dct' ←
          match aget dct e.attr with
          | none => some (aset dct e.attr (WVal.widx [(i, child)]))
          | some (.widx l) => some (aset dct e.attr (WVal.widx (l ++ [(i, child)])))
          | some _ => none
        injectEdges decodeChild rest dct' pp'
      | none => do
        let child ← decodeChild e.dst
        injectEdges decodeChild rest
          (aset dct e.attr (WVal.val (GValue.obj child))) pp

/-- The per-property loop of _node_to_gufe: for each property of
dict(node), in order, json-decode it when listed in _json_props and then
run the dependency injection block - in the source that block is nested
inside the property loop, so it executes once per node property;
postprocess is rebuilt every iteration and the value left by the last
iteration is returned. -/
def loopProps (decodeChild : String → Option GObj) (dep : List DepRel) :
    List (String × PropVal) → WDict → Option (WDict × List String)
  | [], dct => some (dct, [])
  | (akey, pval) :: rest, dct => do
    let jns ← jsonNames dct
    let dct₁ ← jsonStep jns akey pval dct
    let (dct₂, pp) ← injectEdges decodeChild dep dct₁ []
    match rest with
    | [] => some (dct₂, pp)
    | r :: rs => loopProps decodeChild dep (r :: rs) dct₂

/-- Embeds Neo4jStore._node_to_gufe.  fuel bounds the recursion depth
over DEPENDS_ON edges (the mapping memoization of the source does not
change the result on the DAGs produced by encoding and is omitted).
After the property loop, the attributes recorded in postprocess are
sorted by index, the reserved keys popped, and the remaining attribute
map handed to from_shallow_dict, modelled as the GObj constructor. -/
def nodeToGufe : Nat → Subgraph → String → Option GObj
  | 0, _, _ => none
  | fuel + 1, g, nid => do
    let node ← findNode g nid
    let dep := outEdges g nid
    let init : WDict := node.props.map (fun p => (p.1, WVal.raw p.2))
    let (dct, pp) ← loopProps (nodeToGufe fuel g) dep node.props init
    let dct := pp.foldl sortIdxAttr dct
    let dct := reservedKeys.foldl aremove dct
    some (GObj.mk (finalizeDict dct))

/-- decode after encode: encode the object, decode the root node from the
resulting subgraph, and return the reconstructed shallow dict. -/
def roundTrip (fuel : Nat) (o : GObj) : Option (List (String × GValue)) := do
  let (g, node, _) ← gufe_to_subgraph o
  let o' ← nodeToGufe fuel g node.nid
  some o'.sdct

/-! ## Demo states used by the witnesses -/

def entDemo : List Entity := [⟨"bill", ["a-b-c"]⟩, ⟨"ted", ["x-y-z"]⟩]

def scopeDemo : String := "a-b-d"

def billIdent : String := "bill"

def dbC7 : DB :=
  { networks := ["AlchemicalNetwork-abc-org1-campA-projX"]
    networkDeps := []
    hubs := []
    tasks := []
    actions := [] }

def netC7 : String := "AlchemicalNetwork-abc-org1-campA-projX"

def dbC8 : DB :=
  { networks := []
    networkDeps := []
    hubs := [⟨"TaskHub-n1", "n1", 1/2⟩]
    tasks := []
    actions := [⟨"TaskHub-n1", "Task-a", "TaskHub-n1", "Task-a", 1⟩] }

def hubC8 : String := "TaskHub-n1"

def taskC8 : String := "Task-a"

def hubClaimSK : String := "TaskHub-an-1"

def taskOneSK : String := "task-1"

def workerName : String := "worker-1"

/-- A child object with one scalar attribute. -/
def objX : GObj := GObj.mk [("x", GValue.prim (Scalar.sInt 1))]

/-- A second child object. -/
def objY : GObj := GObj.mk [("y", GValue.prim (Scalar.sInt 2))]

/-- A parent whose attribute is the two-element list of objects. -/
def objP : GObj := GObj.mk [("a", GValue.vlist [GValue.obj objX, GValue.obj objY])]

/-- An object with a scalar attribute and a uniform-primitive tuple
attribute. -/
def objT : GObj :=
  GObj.mk [("s", GValue.prim (Scalar.sStr "hello")),
           ("t", GValue.vtuple [GValue.prim (Scalar.sInt 1),
                                GValue.prim (Scalar.sInt 2)])]

/-- An object with an empty list attribute. -/
def objE : GObj := GObj.mk [("e", GValue.vlist [])]

def netOneSK : String := "an-1"

def taskZeroSK : String := "task-0"

/-- A network with one transformation and a hub; task-1 EXTENDS task-0,
and task-0 is still waiting (not complete). -/
def dbQueue : DB :=
  { networks := ["an-1"]
    networkDeps := [("an-1", "tf-1")]
    hubs := [⟨"TaskHub-an-1", "an-1", 1⟩]
    tasks := [⟨"task-0", "waiting", 10, none, "tf-1", none⟩,
              ⟨"task-1", "waiting", 10, none, "tf-1", some "task-0"⟩]
    actions := [] }

/-- A hub with two waiting, actioned tasks of equal priority; the second
has ACTIONS weight zero. -/
def dbClaim : DB :=
  { networks := ["an-1"]
    networkDeps := [("an-1", "tf-1")]
    hubs := [⟨"TaskHub-an-1", "an-1", 1/2⟩]
    tasks := [⟨"task-1", "waiting", 10, none, "tf-1", none⟩,
              ⟨"task-2", "waiting", 10, none, "tf-1", none⟩]
    actions := [⟨"TaskHub-an-1", "task-1", "TaskHub-an-1", "task-1", 1⟩,
                ⟨"TaskHub-an-1", "task-2", "TaskHub-an-1", "task-2", 0⟩] }

/-! ## Theorems: identity and scope store (C9) -/

/-- C9: add_scope is idempotent (a scope already present is not appended,
so after a first add the entry count is exactly one and further adds are
no-ops), and remove_scope removes exactly the occurrences of the given
scope string, leaving other scopes and other entities unchanged, and is a
no-op when the scope is absent. -/
theorem add_remove_scope_spec (es : List Entity) (ident scope : String) :
    add_scope (add_scope es ident scope) ident scope = add_scope es ident scope
    ∧ (∀ e ∈ es, e.identifier ≠ ident → e ∈ add_scope es ident scope
        ∧ e ∈ remove_scope es ident scope)
    ∧ List.Forall₂ (fun e e' =>
        (e.identifier = ident → scope ∉ e.scopes →
          e'.scopes = e.scopes ++ [scope] ∧ e'.scopes.count scope = 1)
        ∧ (e.identifier = ident → scope ∈ e.scopes → e' = e))
      es (add_scope es ident scope)
    ∧ List.Forall₂ (fun e e' =>
        (e.identifier = ident → e'.scopes = e.scopes.filter (fun x => x ≠ scope))
        ∧ (scope ∉ e.scopes → e' = e))
      es (remove_scope es ident scope) := by
  refine ⟨?_, ?_, ?_, ?_⟩
  · unfold add_scope
    rw [List.map_map]
    apply List.map_congr_left
    intro e _
    by_cases h : e.identifier = ident ∧ scope ∉ e.scopes
    · simp only [Function.comp_apply, if_pos h]
      have : ¬ ({ e with scopes := e.scopes ++ [scope] } : Entity).identifier = ident
          ∨ ¬ scope ∉ ({ e with scopes := e.scopes ++ [scope] } : Entity).scopes := by
        right
        simp
      rcases this with h' | h'
      · simp [if_neg, h']
      · rw [if_neg]
        intro hc
        exact h' hc.2
    · simp only [Function.comp_apply, if_neg h, if_neg h]
  · intro e he hid
    constructor
    · unfold add_scope
      have : (if e.identifier = ident ∧ scope ∉ e.scopes then
          { e with scopes := e.scopes ++ [scope] } else e) = e := by
        rw [if_neg]
        intro hc
        exact hid hc.1
      exact this ▸ List.mem_map_of_mem _ he
    · unfold remove_scope
      have : (if e.identifier = ident then
          { e with scopes := e.scopes.filter (fun x => x ≠ scope) } else e) = e := by
        rw [if_neg hid]
      exact this ▸ List.mem_map_of_mem _ he
  · unfold add_scope
    rw [List.forall₂_map_right_iff, List.forall₂_same]
    intro e _
    constructor
    · intro hid hni
      rw [if_pos ⟨hid, hni⟩]
      refine ⟨rfl, ?_⟩
      rw [List.count_append]
      simp [List.count_eq_zero_of_not_mem hni]
    · intro hid hmem
      rw [if_neg]
      intro hc
      exact hc.2 hmem
  · unfold remove_scope
    rw [List.forall₂_map_right_iff, List.forall₂_same]
    intro e _
    constructor
    · intro hid
      rw [if_pos hid]
    · intro hni
      by_cases hid : e.identifier = ident
      · rw [if_pos hid]
        have : e.scopes.filter (fun x => x ≠ scope) = e.scopes := by
          apply List.filter_eq_self.mpr
          intro x hx
          simp only [ne_eq, decide_eq_true_eq]
          intro hxs
          exact hni (hxs ▸ hx)
        rw [this]
      · rw [if_neg hid]

/-- Witness for C9 at a concrete entity list. -/
theorem add_remove_scope_spec_witness :
    add_scope (add_scope entDemo billIdent scopeDemo) billIdent scopeDemo
      = add_scope entDemo billIdent scopeDemo
    ∧ (⟨"ted", ["x-y-z"]⟩ : Entity) ∈ add_scope entDemo billIdent scopeDemo :=
  ⟨(add_remove_scope_spec entDemo billIdent scopeDemo).1,
   ((add_remove_scope_spec entDemo billIdent scopeDemo).2.1 _ (by decide)
     (by decide)).1⟩

/-! ## Theorems: create_taskhub (C7) -/

theorem length_le_one_of_nodup_const {l : List String} (h : l.Nodup)
    (c : String) (hc : ∀ x ∈ l, x = c) : l.length ≤ 1 := by
  match l, h, hc with
  | [], _, _ => simp
  | [a], _, _ => simp
  | a :: b :: t, h, hc =>
    exfalso
    have ha : a = c := hc a (by simp)
    have hb : b = c := hc b (by simp)
    have : a ≠ b := by
      intro hab
      exact (List.nodup_cons.mp h).1 (hab ▸ List.mem_cons_self b t)
    exact this (ha.trans hb.symm)

/-- C7: create_taskhub is idempotent per network: provided every existing
hub for the network carries the canonical content-addressed scoped key and
scoped keys are unique (the database constraint), the first call returns
the canonical key, a second call does not raise, changes nothing, and the
network still has at most one TaskHub; every call returns the same key. -/
theorem create_taskhub_idempotent (db : DB) (network : String)
    (hn : network ∈ db.networks)
    (hcanon : ∀ h ∈ db.hubs, h.network = network → h.sk = taskhubSK network)
    (hndup : (db.hubs.map HubRec.sk).Nodup) :
    ∃ db₁,
      create_taskhub db network = Except.ok (db₁, taskhubSK network)
      ∧ create_taskhub db₁ network = Except.ok (db₁, taskhubSK network)
      ∧ (db₁.hubs.filter (fun h => h.network == network)).length ≤ 1 := by
  by_cases hex : nodeExistsSK db (taskhubSK network)
  · refine ⟨db, ?_, ?_, ?_⟩
    · rw [create_taskhub, if_pos hn, if_pos hex]
    · rw [create_taskhub, if_pos hn, if_pos hex]
    · have hsub : ((db.hubs.filter (fun h => h.network == network)).map HubRec.sk).Nodup :=
        List.Nodup.sublist (List.Sublist.map HubRec.sk (List.filter_sublist _)) hndup
      have hlen : ((db.hubs.filter (fun h => h.network == network)).map HubRec.sk).length
          = (db.hubs.filter (fun h => h.network == network)).length := List.length_map _ _
      rw [← hlen]
      apply length_le_one_of_nodup_const hsub (taskhubSK network)
      intro x hx
      rcases List.mem_map.mp hx with ⟨h, hh, hsk⟩
      rcases List.mem_filter.mp hh with ⟨hmem, hnet⟩
      exact hsk ▸ hcanon h hmem (by simpa using hnet)
  · set db₁ : DB :=
      { db with hubs := db.hubs ++ [⟨taskhubSK network, network, 1/2⟩] } with hdb₁
    have hstep : create_taskhub db network = Except.ok (db₁, taskhubSK network) := by
      rw [create_taskhub, if_pos hn, if_neg hex]
    have hex₁ : nodeExistsSK db₁ (taskhubSK network) = true := by
      simp [nodeExistsSK, hdb₁]
    refine ⟨db₁, hstep, ?_, ?_⟩
    · have hn₁ : network ∈ db₁.networks := hn
      rw [create_taskhub, if_pos hn₁, if_pos hex₁]
    · have hempty : db.hubs.filter (fun h => h.network == network) = [] := by
        rw [List.filter_eq_nil_iff]
        intro h hmem hnet
        apply hex
        have : h.sk = taskhubSK network := hcanon h hmem (by simpa using hnet)
        simp only [nodeExistsSK, Bool.or_eq_true, List.any_eq_true]
        exact Or.inl (Or.inr ⟨h, hmem, by simp [this]⟩)
      simp [hdb₁, List.filter_append, hempty]

/-- Witness for C7: on a database holding one network and no hub, the
idempotence theorem applies. -/
theorem create_taskhub_idempotent_witness :
    ∃ db₁,
      create_taskhub dbC7 netC7 = Except.ok (db₁, taskhubSK netC7)
      ∧ create_taskhub db₁ netC7 = Except.ok (db₁, taskhubSK netC7)
      ∧ (db₁.hubs.filter (fun h => h.network == netC7)).length ≤ 1 :=
  create_taskhub_idempotent dbC7 netC7 (by decide) (by decide) (by decide)

/-! ## Theorems: set_task_weights (C8) -/

theorem setWeightEdge_sets (db : DB) (th t : String) (w : ℚ) :
    ∀ e ∈ (setWeightEdge db th t w).actions, e.hub = th → e.target = t → e.weight = w := by
  intro e he hh ht
  rcases List.mem_map.mp he with ⟨e₀, he₀, hmap⟩
  by_cases hc : e₀.hub == th && e₀.target == t
  · rw [if_pos hc] at hmap
    rw [← hmap]
  · rw [if_neg hc] at hmap
    exfalso
    apply hc
    rw [← hmap] at hh ht
    simp [hh, ht]

theorem setWeightEdge_pres (db : DB) (th t t' : String) (w : ℚ) (P : ℚ → Prop)
    (hPw : P w)
    (h : ∀ e ∈ db.actions, e.hub = th → e.target = t' → P e.weight) :
    ∀ e ∈ (setWeightEdge db th t w).actions, e.hub = th → e.target = t' → P e.weight := by
  intro e he hh ht
  rcases List.mem_map.mp he with ⟨e₀, he₀, hmap⟩
  by_cases hc : e₀.hub == th && e₀.target == t
  · rw [if_pos hc] at hmap
    rw [← hmap]
    exact hPw
  · rw [if_neg hc] at hmap
    exact hmap ▸ h e₀ he₀ (hmap ▸ hh) (hmap ▸ ht)

theorem setWeightEdge_other (db : DB) (th t t' : String) (w : ℚ) (hne : t' ≠ t)
    (P : ℚ → Prop)
    (h : ∀ e ∈ db.actions, e.hub = th → e.target = t' → P e.weight) :
    ∀ e ∈ (setWeightEdge db th t w).actions, e.hub = th → e.target = t' → P e.weight := by
  intro e he hh ht
  rcases List.mem_map.mp he with ⟨e₀, he₀, hmap⟩
  by_cases hc : e₀.hub == th && e₀.target == t
  · exfalso
    rw [if_pos hc] at hmap
    have h1 : e₀.target = t := eq_of_beq ((Bool.and_eq_true _ _).mp hc).2
    have h2 : e.target = e₀.target := by rw [← hmap]
    exact hne (ht.symm.trans (h2.trans h1))
  · rw [if_neg hc] at hmap
    exact hmap ▸ h e₀ he₀ (hmap ▸ hh) (hmap ▸ ht)

theorem foldList_pres (th : String) (w : ℚ) (t' : String) (P : ℚ → Prop) (hPw : P w) :
    ∀ (l : List String) (db : DB),
      (∀ e ∈ db.actions, e.hub = th → e.target = t' → P e.weight) →
      ∀ e ∈ (l.foldl (fun acc t => setWeightEdge acc th t w) db).actions,
        e.hub = th → e.target = t' → P e.weight := by
  intro l
  induction l with
  | nil => intro db h; exact h
  | cons t rest ih =>
    intro db h
    exact ih (setWeightEdge db th t w) (setWeightEdge_pres db th t t' w P hPw h)

theorem foldDict_other (th : String) (t' : String) (P : ℚ → Prop) :
    ∀ (d : List (String × ℚ)) (db : DB), t' ∉ d.map Prod.fst →
      (∀ e ∈ db.actions, e.hub = th → e.target = t' → P e.weight) →
      ∀ e ∈ (d.foldl (fun acc p => setWeightEdge acc th p.1 p.2) db).actions,
        e.hub = th → e.target = t' → P e.weight := by
  intro d
  induction d with
  | nil => intro db _ h; exact h
  | cons q rest ih =>
    intro db hni h
    have hne : t' ≠ q.1 := by
      intro hc
      exact hni (by simp [hc])
    have hni' : t' ∉ rest.map Prod.fst := by
      intro hc
      exact hni (by simp [hc])
    exact ih (setWeightEdge db th q.1 q.2) hni'
      (setWeightEdge_other db th q.1 t' q.2 hne P h)

/-- C8: set_task_weights raises a ValueError with no mutation exactly for
a dict together with a scalar weight and for a list without one; for the
two valid argument shapes it succeeds and every ACTIONS edge from the hub
to a given task ends with that task's requested weight. -/
theorem set_task_weights_spec (db : DB) (th : String) :
    (∀ d w, set_task_weights db (TasksArg.dict d) th (some w)
        = Except.error dictScalarErr)
    ∧ (∀ l, set_task_weights db (TasksArg.list l) th none
        = Except.error listNoScalarErr)
    ∧ (∀ d, (d.map Prod.fst).Nodup →
        ∃ db', set_task_weights db (TasksArg.dict d) th none = Except.ok db'
          ∧ ∀ p ∈ d, ∀ e ∈ db'.actions, e.hub = th → e.target = p.1 →
              e.weight = p.2)
    ∧ (∀ l w,
        ∃ db', set_task_weights db (TasksArg.list l) th (some w) = Except.ok db'
          ∧ ∀ t ∈ l, ∀ e ∈ db'.actions, e.hub = th → e.target = t →
              e.weight = w) := by
  refine ⟨fun d w => rfl, fun l => rfl, ?_, ?_⟩
  · intro d hnd
    refine ⟨_, rfl, ?_⟩
    intro p hp
    induction d generalizing db with
    | nil => cases hp
    | cons q rest ih =>
      have hnd' : (rest.map Prod.fst).Nodup := (List.nodup_cons.mp hnd).2
      rcases List.mem_cons.mp hp with hpq | hpr
      · subst hpq
        have hq : p.1 ∉ rest.map Prod.fst := (List.nodup_cons.mp hnd).1
        exact foldDict_other th p.1 (fun x => x = p.2) rest
          (setWeightEdge db th p.1 p.2) hq
          (setWeightEdge_sets db th p.1 p.2)
      · exact ih (setWeightEdge db th q.1 q.2) hnd' hpr
  · intro l w
    refine ⟨_, rfl, ?_⟩
    intro t ht
    induction l generalizing db with
    | nil => cases ht
    | cons q rest ih =>
      rcases List.mem_cons.mp ht with htq | htr
      · subst htq
        exact foldList_pres th w t (fun x => x = w) rfl rest
          (setWeightEdge db th t w)
          (setWeightEdge_sets db th t w)
      · exact ih (setWeightEdge db th q w) htr

/-- Witness for C8: both error shapes fire and the valid dict shape
succeeds on a concrete database, the hypothesis of the theorem being
discharged by computation. -/
theorem set_task_weights_spec_witness :
    set_task_weights dbC8 (TasksArg.dict [(taskC8, 3)]) hubC8 (some 2)
      = Except.error dictScalarErr
    ∧ set_task_weights dbC8 (TasksArg.list [taskC8]) hubC8 none
      = Except.error listNoScalarErr
    ∧ ∃ db', set_task_weights dbC8 (TasksArg.dict [(taskC8, 3)]) hubC8 none
        = Except.ok db'
        ∧ ∀ p ∈ [(taskC8, (3 : ℚ))], ∀ e ∈ db'.actions,
            e.hub = hubC8 → e.target = p.1 → e.weight = p.2 :=
  ⟨(set_task_weights_spec dbC8 hubC8).1 [(taskC8, 3)] 2,
   (set_task_weights_spec dbC8 hubC8).2.1 [taskC8],
   (set_task_weights_spec dbC8 hubC8).2.2.1 [(taskC8, 3)] (by decide)⟩

/-! ## Theorems: weighted selection (shared by C2 and C4) -/

theorem pickW_mem : ∀ (l : List (String × ℚ)) (r : ℚ) (s : String) (w : ℚ),
    pickW l r = some (s, w) → (s, w) ∈ l := by
  intro l
  induction l with
  | nil => intro r s w h; simp [pickW] at h
  | cons p tl ih =>
    intro r s w h
    rw [pickW] at h
    by_cases hc : r < p.2
    · rw [if_pos hc] at h
      cases h
      exact List.mem_cons_self _ _
    · rw [if_neg hc] at h
      exact List.mem_cons_of_mem _ (ih _ _ _ h)

theorem pickW_pos : ∀ (l : List (String × ℚ)) (r : ℚ) (s : String) (w : ℚ),
    0 ≤ r → pickW l r = some (s, w) → 0 < w := by
  intro l
  induction l with
  | nil => intro r s w _ h; simp [pickW] at h
  | cons p tl ih =>
    intro r s w hr h
    rw [pickW] at h
    by_cases hc : r < p.2
    · rw [if_pos hc] at h
      cases h
      exact lt_of_le_of_lt hr hc
    · rw [if_neg hc] at h
      exact ih (r - p.2) s w (by linarith [not_lt.mp hc]) h

theorem pickW_isSome : ∀ (l : List (String × ℚ)) (r : ℚ),
    0 ≤ r → r < sumW l → (pickW l r).isSome := by
  intro l
  induction l with
  | nil =>
    intro r hr hlt
    exfalso
    simp [sumW] at hlt
    linarith
  | cons p tl ih =>
    intro r hr hlt
    rw [pickW]
    by_cases hc : r < p.2
    · rw [if_pos hc]; rfl
    · rw [if_neg hc]
      apply ih
      · linarith [not_lt.mp hc]
      · have : sumW (p :: tl) = p.2 + sumW tl := by
          simp [sumW]
        linarith

theorem updAssoc_mem (l : List (String × ℚ)) (k : String) (v : ℚ) :
    ∀ q ∈ updAssoc l k v, q ∈ l ∨ q = (k, v) := by
  intro q hq
  rw [updAssoc] at hq
  by_cases hc : l.any (fun p => p.1 == k)
  · rw [if_pos hc] at hq
    rcases List.mem_map.mp hq with ⟨p, hp, hmap⟩
    by_cases hpk : p.1 == k
    · right
      rw [if_pos hpk] at hmap
      exact hmap.symm
    · left
      rw [if_neg hpk] at hmap
      exact hmap ▸ hp
  · rw [if_neg hc] at hq
    rcases List.mem_append.mp hq with h | h
    · exact Or.inl h
    · right
      simpa using h

theorem poolAssoc_mem (pool : List ActionsRel) :
    ∀ q ∈ poolAssoc pool, ∃ e ∈ pool, q = (e.parent_task, e.weight) := by
  suffices h : ∀ (acc : List (String × ℚ)),
      ∀ q ∈ pool.foldl (fun acc e => updAssoc acc e.parent_task e.weight) acc,
        q ∈ acc ∨ ∃ e ∈ pool, q = (e.parent_task, e.weight) by
    intro q hq
    rcases h [] q hq with hin | hex
    · cases hin
    · exact hex
  induction pool with
  | nil => intro acc q hq; exact Or.inl hq
  | cons e rest ih =>
    intro acc q hq
    rcases ih (updAssoc acc e.parent_task e.weight) q hq with hin | ⟨e', he', hq'⟩
    · rcases updAssoc_mem acc e.parent_task e.weight q hin with h | h
      · exact Or.inl h
      · exact Or.inr ⟨e, List.mem_cons_self _ _, h⟩
    · exact Or.inr ⟨e', List.mem_cons_of_mem _ he', hq'⟩

theorem updAssoc_of_not_mem (acc : List (String × ℚ)) (k : String) (v : ℚ)
    (h : ¬ acc.any (fun p => p.1 == k)) : updAssoc acc k v = acc ++ [(k, v)] := by
  rw [updAssoc, if_neg h]

/-- With pairwise distinct parent_task keys the dict build never
overwrites, so tasks_and_weights lists exactly the records. -/
theorem poolAssoc_eq (pool : List ActionsRel)
    (hd : (pool.map (fun e => e.parent_task)).Nodup) :
    poolAssoc pool = pool.map (fun e => (e.parent_task, e.weight)) := by
  suffices h : ∀ (acc : List (String × ℚ)),
      (∀ k ∈ acc.map Prod.fst, k ∉ pool.map (fun e => e.parent_task)) →
      (pool.map (fun e => e.parent_task)).Nodup →
      pool.foldl (fun acc e => updAssoc acc e.parent_task e.weight) acc
        = acc ++ pool.map (fun e => (e.parent_task, e.weight)) by
    have := h [] (by simp) hd
    simpa [poolAssoc] using this
  clear hd
  induction pool with
  | nil => intro acc _ _; simp
  | cons e rest ih =>
    intro acc hdisj hnd
    have hkey : ¬ acc.any (fun p => p.1 == e.parent_task) := by
      intro hc
      rcases List.any_eq_true.mp hc with ⟨p, hp, hpk⟩
      exact hdisj p.1 (List.mem_map_of_mem Prod.fst hp)
        (by simp [eq_of_beq hpk])
    have hstep := updAssoc_of_not_mem acc e.parent_task e.weight hkey
    have hnotin : e.parent_task ∉ rest.map (fun x => x.parent_task) :=
      (List.nodup_cons.mp (by simpa using hnd)).1
    have hnd' : (rest.map (fun x => x.parent_task)).Nodup :=
      (List.nodup_cons.mp (by simpa using hnd)).2
    have hdisj' : ∀ k ∈ (acc ++ [(e.parent_task, e.weight)]).map Prod.fst,
        k ∉ rest.map (fun x => x.parent_task) := by
      intro k hk
      rcases List.mem_map.mp hk with ⟨p, hp, hpk⟩
      rcases List.mem_append.mp hp with h | h
      · intro hc
        exact hdisj k (hpk ▸ List.mem_map_of_mem Prod.fst h)
          (List.mem_cons_of_mem _ hc)
      · have : p = (e.parent_task, e.weight) := by simpa using h
        rw [← hpk, this]
        exact hnotin
    calc (e :: rest).foldl (fun acc x => updAssoc acc x.parent_task x.weight) acc
        = rest.foldl (fun acc x => updAssoc acc x.parent_task x.weight)
            (acc ++ [(e.parent_task, e.weight)]) := by rw [List.foldl_cons, hstep]
      _ = (acc ++ [(e.parent_task, e.weight)])
            ++ rest.map (fun x => (x.parent_task, x.weight)) := ih _ hdisj' hnd'
      _ = acc ++ (e :: rest).map (fun x => (x.parent_task, x.weight)) := by simp

theorem select_some_mem (pool : List ActionsRel) (r : ℚ) (sk : String)
    (h : selectTaskFromTaskpool pool r = some sk) :
    ∃ e ∈ pool, e.parent_task = sk := by
  rw [selectTaskFromTaskpool] at h
  by_cases hz : (poolAssoc pool).all (fun p => p.2 == 0)
  · rw [if_pos hz] at h
    cases h
  · rw [if_neg hz] at h
    rcases Option.map_eq_some'.mp h with ⟨⟨s, w⟩, hpick, hfst⟩
    rcases poolAssoc_mem pool (s, w) (pickW_mem _ _ _ _ hpick) with ⟨e, he, hq⟩
    refine ⟨e, he, ?_⟩
    have hse : s = e.parent_task := congrArg Prod.fst hq
    rw [← hse]
    exact hfst

theorem select_some_posweight (pool : List ActionsRel) (r : ℚ) (sk : String)
    (hnn : ∀ e ∈ pool, 0 ≤ e.weight) (hr0 : 0 ≤ r)
    (h : selectTaskFromTaskpool pool r = some sk) :
    ∃ e ∈ pool, e.parent_task = sk ∧ 0 < e.weight := by
  rw [selectTaskFromTaskpool] at h
  by_cases hz : (poolAssoc pool).all (fun p => p.2 == 0)
  · rw [if_pos hz] at h
    cases h
  · rw [if_neg hz] at h
    rcases Option.map_eq_some'.mp h with ⟨⟨s, w⟩, hpick, hfst⟩
    have hS : 0 ≤ sumW (poolAssoc pool) := by
      apply List.sum_nonneg
      intro x hx
      rcases List.mem_map.mp hx with ⟨q, hq, hqx⟩
      rcases poolAssoc_mem pool q hq with ⟨e, he, hqe⟩
      have : q.2 = e.weight := congrArg Prod.snd hqe
      rw [← hqx, this]
      exact hnn e he
    have hpos := pickW_pos _ _ _ _ (mul_nonneg hr0 hS) hpick
    rcases poolAssoc_mem pool (s, w) (pickW_mem _ _ _ _ hpick) with ⟨e, he, hq⟩
    refine ⟨e, he, ?_, ?_⟩
    · have hse : s = e.parent_task := congrArg Prod.fst hq
      rw [← hse]
      exact hfst
    · have : w = e.weight := congrArg Prod.snd hq
      rw [← this]
      exact hpos

theorem select_of_allzero (pool : List ActionsRel) (r : ℚ)
    (h : ∀ e ∈ pool, e.weight = 0) :
    selectTaskFromTaskpool pool r = none := by
  rw [selectTaskFromTaskpool]
  rw [if_pos]
  rw [List.all_eq_true]
  intro q hq
  rcases poolAssoc_mem pool q hq with ⟨e, he, hqe⟩
  have : q.2 = e.weight := congrArg Prod.snd hqe
  simp [this, h e he]

theorem select_none_allzero (pool : List ActionsRel) (r : ℚ)
    (hnn : ∀ e ∈ pool, 0 ≤ e.weight)
    (hd : (pool.map (fun e => e.parent_task)).Nodup)
    (hr0 : 0 ≤ r) (hr1 : r < 1)
    (h : selectTaskFromTaskpool pool r = none) :
    ∀ e ∈ pool, e.weight = 0 := by
  rw [selectTaskFromTaskpool] at h
  by_cases hz : (poolAssoc pool).all (fun p => p.2 == 0)
  · intro e he
    have heq := poolAssoc_eq pool hd
    have : (e.parent_task, e.weight) ∈ poolAssoc pool := by
      rw [heq]
      exact List.mem_map_of_mem _ he
    have := List.all_eq_true.mp hz _ this
    simpa using this
  · exfalso
    rw [if_neg hz] at h
    have hSnn : 0 ≤ sumW (poolAssoc pool) := by
      apply List.sum_nonneg
      intro x hx
      rcases List.mem_map.mp hx with ⟨q, hq, hqx⟩
      rcases poolAssoc_mem pool q hq with ⟨e, he, hqe⟩
      have : q.2 = e.weight := congrArg Prod.snd hqe
      rw [← hqx, this]
      exact hnn e he
    have hSpos : 0 < sumW (poolAssoc pool) := by
      rw [List.all_eq_true] at hz
      push_neg at hz
      rcases hz with ⟨q, hq, hqz⟩
      have hq2 : q.2 ≠ 0 := by simpa using hqz
      rcases poolAssoc_mem pool q hq with ⟨e, he, hqe⟩
      have hqw : q.2 = e.weight := congrArg Prod.snd hqe
      have hqpos : 0 < q.2 := lt_of_le_of_ne (hqw ▸ hnn e he) (Ne.symm hq2)
      have hle : q.2 ≤ sumW (poolAssoc pool) := by
        apply List.single_le_sum
        · intro x hx
          rcases List.mem_map.mp hx with ⟨q', hq', hqx'⟩
          rcases poolAssoc_mem pool q' hq' with ⟨e', he', hqe'⟩
          have : q'.2 = e'.weight := congrArg Prod.snd hqe'
          rw [← hqx', this]
          exact hnn e' he'
        · exact List.mem_map_of_mem Prod.snd hq
      linarith
    have hlt : r * sumW (poolAssoc pool) < sumW (poolAssoc pool) := by
      nlinarith
    have := pickW_isSome (poolAssoc pool) (r * sumW (poolAssoc pool))
      (mul_nonneg hr0 hSnn) hlt
    rw [Option.isSome_iff_exists] at this
    rcases this with ⟨p, hp⟩
    rw [hp] at h
    cases h

/-! ## Theorems: claim step characterization (C2, C4) -/

theorem taskpool_mem (db : DB) (th : String) (e : ActionsRel)
    (h : e ∈ taskpoolQ db th) :
    e ∈ db.actions ∧ e.hub = th ∧ isWaiting db e.target = true
      ∧ taskPriority db e.target = hubMinPriority db th := by
  rw [taskpoolQ] at h
  cases hm : hubMinPriority db th with
  | none => rw [hm] at h; cases h
  | some m =>
    rw [hm] at h
    rcases List.mem_filter.mp h with ⟨hw, hp⟩
    rcases List.mem_filter.mp hw with ⟨ha, hcond⟩
    have hhub : e.hub = th := eq_of_beq ((Bool.and_eq_true _ _).mp hcond).1
    have hwait : isWaiting db e.target = true := ((Bool.and_eq_true _ _).mp hcond).2
    have hpri : taskPriority db e.target = some m := by simpa using hp
    exact ⟨ha, hhub, hwait, hpri⟩

theorem waiting_task (db : DB) (sk : String) (h : isWaiting db sk = true) :
    ∃ t ∈ db.tasks, t.sk = sk ∧ t.status = "waiting" ∧ findTask db sk = some t := by
  rw [isWaiting] at h
  cases hf : findTask db sk with
  | none => rw [hf] at h; cases h
  | some t =>
    rw [hf] at h
    have hf' : db.tasks.find? (fun x => x.sk == sk) = some t := hf
    have hmem : t ∈ db.tasks := List.mem_of_find?_eq_some hf'
    have hpred := List.find?_some hf'
    have hsk : t.sk = sk := by simpa using hpred
    exact ⟨t, hmem, hsk, eq_of_beq h, rfl⟩

theorem taskpool_sublist (db : DB) (th : String) :
    (taskpoolQ db th).Sublist db.actions := by
  rw [taskpoolQ]
  cases hubMinPriority db th with
  | none => exact List.nil_sublist _
  | some m => exact (List.filter_sublist _).trans (List.filter_sublist _)

theorem taskpool_parents_nodup (db : DB) (th : String)
    (hwf : actionsDenormWF db) (hu : actionsUnique db) :
    ((taskpoolQ db th).map (fun e => e.parent_task)).Nodup := by
  have hsub : (taskpoolQ db th).Sublist db.actions := taskpool_sublist db th
  have hpairs : ((taskpoolQ db th).map (fun e => (e.hub, e.target))).Nodup :=
    List.Nodup.sublist (List.Sublist.map _ hsub) hu
  have hnd : (taskpoolQ db th).Nodup := List.Nodup.of_map _ hpairs
  have htgt : ((taskpoolQ db th).map (fun e => e.target)).Nodup := by
    apply List.Nodup.map_on ?_ hnd
    intro x hx y hy hxy
    apply List.inj_on_of_nodup_map hpairs hx hy
    have hxh : x.hub = th := (taskpool_mem db th x hx).2.1
    have hyh : y.hub = th := (taskpool_mem db th y hy).2.1
    rw [hxh, hyh, hxy]
  have hmapeq : (taskpoolQ db th).map (fun e => e.parent_task)
      = (taskpoolQ db th).map (fun e => e.target) := by
    apply List.map_congr_left
    intro e he
    exact hwf e (hsub.subset he)
  rw [hmapeq]
  exact htgt

theorem claimStep_actions (db : DB) (th claimant : String) (r : ℚ) :
    (claimStep th claimant r db).1.actions = db.actions := by
  rw [claimStep]
  by_cases hpool : taskpoolQ db th = []
  · rw [if_pos hpool]
  · rw [if_neg hpool]
    cases hsel : selectTaskFromTaskpool (taskpoolQ db th) r with
    | none => rfl
    | some sk =>
      show (runClaimQuery db sk claimant).1.actions = db.actions
      rw [runClaimQuery.eq_def]
      cases findTask db sk with
      | none => rfl
      | some t => rfl

theorem claimStep_none_iff (db : DB) (th claimant : String) (r : ℚ)
    (hwf : actionsDenormWF db) (hnn : weightsNonneg db) (hu : actionsUnique db)
    (hr0 : 0 ≤ r) (hr1 : r < 1) :
    (claimStep th claimant r db).2 = none ↔ nullCond db th := by
  by_cases hpool : taskpoolQ db th = []
  · constructor
    · intro _
      exact Or.inl hpool
    · intro _
      rw [claimStep, if_pos hpool]
  · rw [claimStep, if_neg hpool]
    constructor
    · intro h
      cases hsel : selectTaskFromTaskpool (taskpoolQ db th) r with
      | none =>
        right
        refine select_none_allzero _ r ?_ ?_ hr0 hr1 hsel
        · intro e he
          exact hnn e ((taskpool_sublist db th).subset he)
        · exact taskpool_parents_nodup db th hwf hu
      | some sk =>
        exfalso
        rw [hsel] at h
        have h' : (runClaimQuery db sk claimant).2 = none := h
        rcases select_some_mem _ r sk hsel with ⟨e, he, hpar⟩
        have hmem := taskpool_mem db th e he
        rcases waiting_task db e.target hmem.2.2.1 with ⟨t, _, _, _, hfind⟩
        have hts : findTask db sk = some t := by
          have hx : e.target = sk :=
            (hwf e ((taskpool_sublist db th).subset he)).symm.trans hpar
          rw [← hx]
          exact hfind
        rw [runClaimQuery.eq_def, hts] at h'
        simp at h'
    · intro h
      rcases h with h | h
      · exact absurd h hpool
      · rw [select_of_allzero _ r h]

theorem claimStep_some_spec (db : DB) (th claimant : String) (r : ℚ) (sk : String)
    (hwf : actionsDenormWF db) (hnn : weightsNonneg db) (hr0 : 0 ≤ r)
    (h : (claimStep th claimant r db).2 = some sk) : pickedOk db th sk := by
  by_cases hpool : taskpoolQ db th = []
  · rw [claimStep, if_pos hpool] at h
    cases h
  · rw [claimStep, if_neg hpool] at h
    cases hsel : selectTaskFromTaskpool (taskpoolQ db th) r with
    | none =>
      rw [hsel] at h
      cases h
    | some sk₀ =>
      rw [hsel] at h
      have h2 : (runClaimQuery db sk₀ claimant).2 = some sk := h
      have hsk : sk₀ = sk := by
        rw [runClaimQuery.eq_def] at h2
        cases hf : findTask db sk₀ with
        | none => rw [hf] at h2; simp at h2
        | some t => rw [hf] at h2; simpa using h2
      subst hsk
      have hnnp : ∀ e ∈ taskpoolQ db th, 0 ≤ e.weight := by
        intro e he
        exact hnn e ((taskpool_sublist db th).subset he)
      rcases select_some_posweight _ r sk₀ hnnp hr0 hsel with ⟨e, he, hpar, hwpos⟩
      have hmem := taskpool_mem db th e he
      have hts : e.target = sk₀ :=
        (hwf e ((taskpool_sublist db th).subset he)).symm.trans hpar
      rcases waiting_task db e.target hmem.2.2.1 with ⟨t, htm, htsk, htst, hfind⟩
      constructor
      · refine ⟨t, htm, hts ▸ htsk, htst, ?_⟩
        have : taskPriority db e.target = some t.priority := by
          rw [taskPriority, hfind]
          rfl
        rw [← hmem.2.2.2, this]
      · exact ⟨e, hmem.1, hmem.2.1, hpar, ne_of_gt hwpos⟩

theorem claimStep_eq_run (db : DB) (th claimant : String) (r : ℚ) (sk₀ : String)
    (hpool : ¬ taskpoolQ db th = [])
    (hsel : selectTaskFromTaskpool (taskpoolQ db th) r = some sk₀) :
    claimStep th claimant r db = runClaimQuery db sk₀ claimant := by
  rw [claimStep, if_neg hpool, hsel]

theorem claimUpdate_frame : ∀ (ts : List TaskRec) (sk c : String) (t : TaskRec),
    t ∈ ts → t.sk ≠ sk → t ∈ claimUpdate ts sk c := by
  intro ts
  induction ts with
  | nil =>
    intro sk c t h _
    cases h
  | cons u rest ih =>
    intro sk c t ht hne
    rw [claimUpdate]
    by_cases hc : u.sk == sk
    · rw [if_pos hc]
      rcases List.mem_cons.mp ht with h | h
      · exact absurd (h ▸ eq_of_beq hc) hne
      · exact List.mem_cons_of_mem _ h
    · rw [if_neg hc]
      rcases List.mem_cons.mp ht with h | h
      · exact h ▸ List.mem_cons_self _ _
      · exact List.mem_cons_of_mem _ (ih sk c t h hne)

theorem claimUpdate_sets : ∀ (ts : List TaskRec) (sk c : String),
    (ts.map TaskRec.sk).Nodup →
    ∀ u ∈ claimUpdate ts sk c, u.sk = sk →
      u.status = "running" ∧ u.claim = some c := by
  intro ts
  induction ts with
  | nil =>
    intro sk c _ u hu
    cases hu
  | cons t rest ih =>
    intro sk c hnd u hu husk
    rw [claimUpdate] at hu
    by_cases hc : t.sk == sk
    · rw [if_pos hc] at hu
      rcases List.mem_cons.mp hu with h | h
      · subst h
        exact ⟨rfl, rfl⟩
      · exfalso
        have hin : u.sk ∈ rest.map TaskRec.sk := List.mem_map_of_mem _ h
        rw [husk, ← eq_of_beq hc] at hin
        exact (List.nodup_cons.mp (by simpa using hnd)).1 hin
    · rw [if_neg hc] at hu
      rcases List.mem_cons.mp hu with h | h
      · exact absurd (beq_iff_eq.mpr (h ▸ husk)) hc
      · exact ih sk c (List.nodup_cons.mp (by simpa using hnd)).2 u h husk

theorem claimUpdate_exists : ∀ (ts : List TaskRec) (sk c : String),
    (∃ t ∈ ts, t.sk = sk) →
    ∃ u ∈ claimUpdate ts sk c,
      u.sk = sk ∧ u.status = "running" ∧ u.claim = some c := by
  intro ts
  induction ts with
  | nil =>
    intro sk c h
    rcases h with ⟨t, ht, _⟩
    cases ht
  | cons t rest ih =>
    intro sk c h
    rw [claimUpdate]
    by_cases hc : t.sk == sk
    · rw [if_pos hc]
      exact ⟨_, List.mem_cons_self _ _, eq_of_beq hc, rfl, rfl⟩
    · rw [if_neg hc]
      rcases h with ⟨t', ht', hsk⟩
      rcases List.mem_cons.mp ht' with h1 | h1
      · exact absurd (beq_iff_eq.mpr (h1 ▸ hsk)) hc
      · rcases ih sk c ⟨t', h1, hsk⟩ with ⟨u, hu, hprop⟩
        exact ⟨u, List.mem_cons_of_mem _ hu, hprop⟩

theorem claimStep_some_sk (db : DB) (th claimant : String) (r : ℚ) (sk₀ sk : String)
    (h : (runClaimQuery db sk₀ claimant).2 = some sk) : sk₀ = sk := by
  rw [runClaimQuery.eq_def] at h
  cases hf : findTask db sk₀ with
  | none =>
    rw [hf] at h
    simp at h
  | some t =>
    rw [hf] at h
    simpa using h

theorem claimStep_some_state (db : DB) (th claimant : String) (r : ℚ) (sk : String)
    (h : (claimStep th claimant r db).2 = some sk) :
    (claimStep th claimant r db).1
      = { db with tasks := claimUpdate db.tasks sk claimant } := by
  by_cases hpool : taskpoolQ db th = []
  · rw [claimStep, if_pos hpool] at h
    cases h
  · cases hsel : selectTaskFromTaskpool (taskpoolQ db th) r with
    | none =>
      rw [claimStep, if_neg hpool, hsel] at h
      cases h
    | some sk₀ =>
      have hstep := claimStep_eq_run db th claimant r sk₀ hpool hsel
      rw [hstep] at h ⊢
      have hsk : sk₀ = sk := claimStep_some_sk db th claimant r sk₀ sk h
      subst hsk
      rw [runClaimQuery.eq_def] at h ⊢
      cases hf : findTask db sk₀ with
      | none =>
        rw [hf] at h
        simp at h
      | some t => rfl

/-- C4: a claim iteration that selects a task flips exactly that task to
status running with the claimant stored, in the same step as the
selection; the selection pool only contains waiting tasks, so the selected
task was waiting (and in particular never one already marked running); in
the post state every task with that key is running with exactly this
claimant stored; ACTIONS relationships and all other tasks are
untouched. -/
theorem claim_step_atomic (db : DB) (th claimant : String) (r : ℚ) (sk : String)
    (hwf : actionsDenormWF db)
    (hnd : (db.tasks.map TaskRec.sk).Nodup)
    (h : (claimStep th claimant r db).2 = some sk) :
    (∃ t ∈ db.tasks, t.sk = sk ∧ t.status = "waiting")
    ∧ (∀ t ∈ db.tasks, t.sk = sk → t.status = "waiting")
    ∧ (∃ u ∈ (claimStep th claimant r db).1.tasks,
        u.sk = sk ∧ u.status = "running" ∧ u.claim = some claimant)
    ∧ (∀ u ∈ (claimStep th claimant r db).1.tasks, u.sk = sk →
        u.status = "running" ∧ u.claim = some claimant)
    ∧ (claimStep th claimant r db).1.actions = db.actions
    ∧ (∀ t ∈ db.tasks, t.sk ≠ sk → t ∈ (claimStep th claimant r db).1.tasks) := by
  have hex : ∃ t ∈ db.tasks, t.sk = sk ∧ t.status = "waiting" := by
    by_cases hpool : taskpoolQ db th = []
    · rw [claimStep, if_pos hpool] at h
      cases h
    · cases hsel : selectTaskFromTaskpool (taskpoolQ db th) r with
      | none =>
        rw [claimStep, if_neg hpool, hsel] at h
        cases h
      | some sk₀ =>
        rw [claimStep_eq_run db th claimant r sk₀ hpool hsel] at h
        have hsk : sk₀ = sk := claimStep_some_sk db th claimant r sk₀ sk h
        subst hsk
        rcases select_some_mem _ r sk₀ hsel with ⟨e, he, hpar⟩
        have hmem := taskpool_mem db th e he
        rcases waiting_task db e.target hmem.2.2.1 with ⟨t, htm, htsk, htst, _⟩
        have hts : e.target = sk₀ :=
          (hwf e ((taskpool_sublist db th).subset he)).symm.trans hpar
        exact ⟨t, htm, hts ▸ htsk, htst⟩
  have hstate := claimStep_some_state db th claimant r sk h
  have hinj := List.inj_on_of_nodup_map hnd
  refine ⟨hex, ?_, ?_, ?_, claimStep_actions db th claimant r, ?_⟩
  · intro t ht hsk
    rcases hex with ⟨t₀, ht₀, hsk₀, hw₀⟩
    have : t = t₀ := hinj ht ht₀ (hsk.trans hsk₀.symm)
    rw [this]
    exact hw₀
  · rw [hstate]
    rcases hex with ⟨t₀, ht₀, hsk₀, _⟩
    exact claimUpdate_exists db.tasks sk claimant ⟨t₀, ht₀, hsk₀⟩
  · rw [hstate]
    exact claimUpdate_sets db.tasks sk claimant hnd
  · intro t ht hne
    rw [hstate]
    exact claimUpdate_frame db.tasks sk claimant t ht hne

theorem ClaimReach.append {th claimant : String} {rnd : Nat → ℚ} {a b c : DB}
    (h1 : ClaimReach th claimant rnd a b) (h2 : ClaimReach th claimant rnd b c) :
    ClaimReach th claimant rnd a c := by
  induction h2 with
  | refl => exact h1
  | step d i hprev ih => exact ClaimReach.step a d i ih

theorem claimStep_preserves (db : DB) (th claimant : String) (r : ℚ)
    (hwf : actionsDenormWF db) (hnn : weightsNonneg db) (hu : actionsUnique db) :
    actionsDenormWF (claimStep th claimant r db).1
    ∧ weightsNonneg (claimStep th claimant r db).1
    ∧ actionsUnique (claimStep th claimant r db).1 := by
  have h := claimStep_actions db th claimant r
  refine ⟨?_, ?_, ?_⟩
  · intro e he
    exact hwf e (h ▸ he)
  · intro e he
    exact hnn e (h ▸ he)
  · rw [actionsUnique, h]
    exact hu

theorem claimLoop_spec (th claimant : String) (rnd : Nat → ℚ)
    (hr : ∀ i, 0 ≤ rnd i ∧ rnd i < 1) :
    ∀ (n i : Nat) (db : DB),
      actionsDenormWF db → weightsNonneg db → actionsUnique db →
      (claimLoop th claimant rnd i n db).2.length = n
      ∧ ∀ o ∈ (claimLoop th claimant rnd i n db).2,
          ∃ d : DB, ClaimReach th claimant rnd db d
            ∧ (o = none ↔ nullCond d th)
            ∧ (∀ sk, o = some sk → pickedOk d th sk) := by
  intro n
  induction n with
  | zero =>
    intro i db _ _ _
    constructor
    · simp [claimLoop]
    · intro o ho
      simp [claimLoop] at ho
  | succ m ih =>
    intro i db hwf hnn hu
    have hpres := claimStep_preserves db th claimant (rnd i) hwf hnn hu
    obtain ⟨h1, hall⟩ :=
      ih (i + 1) (claimStep th claimant (rnd i) db).1 hpres.1 hpres.2.1 hpres.2.2
    constructor
    · simp only [claimLoop, List.length_cons]
      rw [h1]
    · intro o ho
      simp only [claimLoop, List.mem_cons] at ho
      rcases ho with rfl | ho
      · refine ⟨db, ClaimReach.refl db, ?_, ?_⟩
        · exact claimStep_none_iff db th claimant (rnd i) hwf hnn hu
            (hr i).1 (hr i).2
        · intro sk hsk
          exact claimStep_some_spec db th claimant (rnd i) sk hwf hnn (hr i).1 hsk
      · rcases hall o ho with ⟨d, hreach, hiff, hsome⟩
        exact ⟨d, ClaimReach.append
          (ClaimReach.step db db i (ClaimReach.refl db)) hreach, hiff, hsome⟩

/-- C2: claim_taskhub_tasks returns a list of exactly count entries;
relative to the database state d of its iteration, an entry is null
exactly when no waiting task is actioned on the hub or every ACTIONS
weight among waiting tasks at the minimum priority is zero; otherwise it
is the scoped key of a task whose status was waiting and whose priority
was the minimum among waiting tasks actioned on the hub, and its ACTIONS
weight is nonzero, so a zero-weight task is never the selected task. -/
theorem claim_taskhub_tasks_spec (db : DB) (th claimant : String) (count : Nat)
    (rnd : Nat → ℚ)
    (hwf : actionsDenormWF db) (hnn : weightsNonneg db) (hu : actionsUnique db)
    (hr : ∀ i, 0 ≤ rnd i ∧ rnd i < 1) :
    (claim_taskhub_tasks db th claimant count rnd).2.length = count
    ∧ ∀ o ∈ (claim_taskhub_tasks db th claimant count rnd).2,
        ∃ d : DB, ClaimReach th claimant rnd db d
          ∧ (o = none ↔ nullCond d th)
          ∧ (∀ sk, o = some sk → pickedOk d th sk) :=
  claimLoop_spec th claimant rnd hr count 0 db hwf hnn hu

/-- Witness for C4: with the uniform draw 0 the step claims task-1 (the
only nonzero-weight waiting task), and the theorem applies with all
hypotheses discharged by computation. -/
theorem claim_step_atomic_witness :
    (∃ t ∈ dbClaim.tasks, t.sk = taskOneSK ∧ t.status = "waiting")
    ∧ (∀ t ∈ dbClaim.tasks, t.sk = taskOneSK → t.status = "waiting")
    ∧ (∃ u ∈ (claimStep hubClaimSK workerName 0 dbClaim).1.tasks,
        u.sk = taskOneSK ∧ u.status = "running" ∧ u.claim = some workerName)
    ∧ (∀ u ∈ (claimStep hubClaimSK workerName 0 dbClaim).1.tasks, u.sk = taskOneSK →
        u.status = "running" ∧ u.claim = some workerName)
    ∧ (claimStep hubClaimSK workerName 0 dbClaim).1.actions = dbClaim.actions
    ∧ (∀ t ∈ dbClaim.tasks, t.sk ≠ taskOneSK →
        t ∈ (claimStep hubClaimSK workerName 0 dbClaim).1.tasks) :=
  claim_step_atomic dbClaim hubClaimSK workerName 0 taskOneSK
    (by intro e he; fin_cases he <;> rfl)
    (by decide)
    (by
      have hpool : ¬ taskpoolQ dbClaim hubClaimSK = [] := by decide
      have hsel : selectTaskFromTaskpool (taskpoolQ dbClaim hubClaimSK) 0
          = some taskOneSK := by
        simp only [selectTaskFromTaskpool]
        have hpa : poolAssoc (taskpoolQ dbClaim hubClaimSK)
            = [(taskOneSK, 1), ("task-2", 0)] := by decide
        rw [hpa, if_neg (by decide)]
        have hs : sumW [(taskOneSK, (1 : ℚ)), ("task-2", 0)] = 1 := by
          norm_num [sumW]
        rw [hs]
        rw [show ((0 : ℚ) * 1) = 0 by norm_num]
        decide
      rw [claimStep_eq_run dbClaim hubClaimSK workerName 0 taskOneSK hpool hsel]
      rw [runClaimQuery.eq_def]
      have hf : findTask dbClaim taskOneSK
          = some ⟨"task-1", "waiting", 10, none, "tf-1", none⟩ := by decide
      rw [hf])

/-- Witness for C2: two claim iterations on the demo hub, the theorem
applied with every hypothesis discharged by computation. -/
theorem claim_taskhub_tasks_spec_witness :
    (claim_taskhub_tasks dbClaim hubClaimSK workerName 2 (fun _ => 0)).2.length = 2
    ∧ ∀ o ∈ (claim_taskhub_tasks dbClaim hubClaimSK workerName 2 (fun _ => 0)).2,
        ∃ d : DB, ClaimReach hubClaimSK workerName (fun _ => 0) dbClaim d
          ∧ (o = none ↔ nullCond d hubClaimSK)
          ∧ (∀ sk, o = some sk → pickedOk d hubClaimSK sk) :=
  claim_taskhub_tasks_spec dbClaim hubClaimSK workerName 2 (fun _ => 0)
    (by intro e he; fin_cases he <;> rfl)
    (by intro e he; fin_cases he <;> norm_num)
    (by rw [actionsUnique]; decide)
    (fun _ => ⟨le_refl 0, by norm_num⟩)

/-! ## Theorems: queue, dequeue, delete (C3, C5, C6) -/

/-- C3 (divergence): task-1 has an EXTENDS predecessor task-0 whose
status is waiting, not complete, yet queue_taskhub_tasks succeeds and
creates the ACTIONS relationship for task-1 - the WHERE guard is
attached to the OPTIONAL MATCH and so never blocks the CREATE. -/
theorem queue_ignores_extends_guard :
    queue_taskhub_tasks dbQueue [taskOneSK] hubClaimSK
      = Except.ok
          ({ dbQueue with
              actions := [⟨hubClaimSK, taskOneSK, hubClaimSK, taskOneSK, 1⟩] },
            [taskOneSK])
    ∧ (∀ t ∈ dbQueue.tasks, t.sk = taskZeroSK → t.status = "waiting") := by
  constructor
  · rfl
  · decide

/-- C5 (divergence): dequeue_taskhub_tasks on a task actioned on the hub
raises a Cypher syntax error (malformed query) and removes nothing: the
ACTIONS relationship is still present in the unchanged state. -/
theorem dequeue_raises_and_removes_nothing :
    dequeue_taskhub_tasks dbClaim [taskOneSK] hubClaimSK
      = Except.error cypherSyntaxErr
    ∧ ∃ e ∈ dbClaim.actions, e.hub = hubClaimSK ∧ e.target = taskOneSK := by
  constructor
  · rfl
  · exact ⟨_, List.mem_cons_self _ _, rfl, rfl⟩

/-- C6 (divergence): delete_network on a stored network with a TaskHub
raises (delete_taskhub runs a malformed query) and deletes nothing; the
network scoped key still resolves in the unchanged state.  The query
that would delete the network node is never executed at all. -/
theorem delete_network_never_deletes :
    delete_network dbClaim netOneSK = Except.error cypherSyntaxErr
    ∧ netOneSK ∈ dbClaim.networks
    ∧ get_taskhub dbClaim netOneSK = some hubClaimSK := by
  refine ⟨rfl, by decide, rfl⟩

/-! ## Theorems: object-graph codec (C1, C10) -/

/-- C1 (divergence): decoding the encoded subgraph of objP does not
reproduce its shallow dict.  The dependency-injection block of
_node_to_gufe is nested inside the per-property loop, so each
(index, child) pair of the list attribute is appended once per node
property - six times, once for each reserved property - and the decoded
list holds every element six times.  A uniform-primitive tuple attribute
is dropped outright: its branch in _gufe_to_subgraph stores nothing. -/
theorem roundtrip_not_identity :
    roundTrip 3 objP
      = some [("a", GValue.vlist
          (List.replicate 6 (GValue.obj objX)
            ++ List.replicate 6 (GValue.obj objY)))]
    ∧ roundTrip 3 objP ≠ some objP.sdct
    ∧ roundTrip 3 objT = some [("s", GValue.prim (Scalar.sStr "hello"))] := by
  have h1 : roundTrip 3 objP
      = some [("a", GValue.vlist
          (List.replicate 6 (GValue.obj objX)
            ++ List.replicate 6 (GValue.obj objY)))] := rfl
  refine ⟨h1, ?_, rfl⟩
  intro h
  rw [h1] at h
  have hs : objP.sdct = [("a", GValue.vlist [GValue.obj objX, GValue.obj objY])] :=
    rfl
  rw [hs] at h
  have h2 := Option.some.inj h
  have h3 : ("a", GValue.vlist
      (List.replicate 6 (GValue.obj objX) ++ List.replicate 6 (GValue.obj objY)))
      = ("a", GValue.vlist [GValue.obj objX, GValue.obj objY]) :=
    (List.cons_eq_cons.mp h2).1
  have h4 := congrArg Prod.snd h3
  have h5 : (List.replicate 6 (GValue.obj objX)
      ++ List.replicate 6 (GValue.obj objY))
      = [GValue.obj objX, GValue.obj objY] := by
    injection h4
  have h6 := congrArg List.length h5
  simp at h6

theorem encAttrs_empty_list (pk : String) :
    ∀ (l : List (String × GValue)) (k : String),
      (k, GValue.vlist []) ∈ l → encAttrs pk l = none := by
  intro l
  induction l with
  | nil =>
    intro k h
    cases h
  | cons p rest ih =>
    intro k h
    obtain ⟨pk', pv'⟩ := p
    rcases List.mem_cons.mp h with h1 | h1
    · rw [Prod.mk.injEq] at h1
      obtain ⟨e1, e2⟩ := h1
      rw [← e1, ← e2]
      simp [encAttrs, encAttr]
    · simp [encAttrs, ih k h1]

/-- C10: encode is partial on empty-list attributes: whenever the shallow
attribute dictionary maps some attribute to an empty list, the list
branch inspects value[0] unconditionally and _gufe_to_subgraph fails
with an IndexError, so no subgraph is produced. -/
theorem gufe_to_subgraph_empty_list (o : GObj) (k : String)
    (h : (k, GValue.vlist []) ∈ o.sdct) :
    gufe_to_subgraph o = none := by
  obtain ⟨sdct⟩ := o
  have hattr := encAttrs_empty_list (GObj.key (GObj.mk sdct)) sdct k h
  simp [gufe_to_subgraph, encObj, hattr]

/-- Witness for C10 at the concrete object with an empty list
attribute. -/
theorem gufe_to_subgraph_empty_list_witness :
    gufe_to_subgraph objE = none :=
  gufe_to_subgraph_empty_list objE ("e") (List.mem_singleton.mpr rfl)

end Alchemiscale
